import Mathlib

set_option maxRecDepth 100000

/-!
Verification development for a two-file Python repository: a Selenium-based
Amazon scraper (`headphones.py`) and a Streamlit CSV viewer
(`simple_amazon_viewer.py`).  Strings are modelled as `List Char`; the pandas
dataframes of the viewer are modelled as lists of rows, each row a list of
already-stringified cells.  All definitions are executable and translated from
the source; the few definitions that instead follow the wording of the specification (used to compare spec against code) say so in their doc comments.
-/

namespace AmazonRepo

/-! ## Basic character/string utilities -/

/-- Characters accepted by the character class of the amount regex
`[\d,]+`: a decimal digit or a comma. -/
def isAmtChar (c : Char) : Bool := c.isDigit || c = ','

/-- Model of Python `str.strip()`: drop whitespace from both ends. -/
def pyStrip (s : List Char) : List Char :=
  ((s.dropWhile Char.isWhitespace).reverse.dropWhile Char.isWhitespace).reverse

/-- Lowercase every character (model of case-insensitive comparison). -/
def lowerL (s : List Char) : List Char := s.map Char.toLower

/-- Boolean prefix test on character lists. -/
def isPrefixL : List Char → List Char → Bool
  | [], _ => true
  | _ :: _, [] => false
  | a :: as, b :: bs => decide (a = b) && isPrefixL as bs

/-- Boolean substring-occurrence test: `needle` occurs contiguously in `hay`. -/
def occursIn (needle : List Char) : List Char → Bool
  | [] => needle.isEmpty
  | c :: t => isPrefixL needle (c :: t) || occursIn needle t

/-- Numeric value of a decimal digit string (most significant digit first). -/
def digitsVal (l : List Char) : Nat :=
  l.foldl (fun n c => 10 * n + (c.toNat - '0'.toNat)) 0

/-! ## Model of `parse_amount` (headphones.py lines 13-29)

```
AMT_RE = re.compile(r"[\d,]+(?:\.\d+)?")
def parse_amount(text):
    if not text: return None
    t = text.replace("â‚¹", "").replace("Rs.", "").replace("Rs", "")
    m = AMT_RE.search(t)
    if not m: return None
    s = m.group(0).replace(",", "")
    try: return int(float(s))
    except: return None
```
-/

/-- Fuel-driven model of Python `str.replace(pat, "")`: remove every
non-overlapping occurrence of `pat`, scanning left to right.  `fuel`
at least the length of the subject string suffices, since every step
consumes at least one character (all patterns used are non-empty). -/
def removeAllFuel (pat : List Char) : Nat → List Char → List Char
  | _, [] => []
  | 0, s => s
  | f + 1, c :: cs =>
    if isPrefixL pat (c :: cs) then removeAllFuel pat f (List.drop pat.length (c :: cs))
    else c :: removeAllFuel pat f cs

/-- Python `s.replace(pat, "")` for a non-empty pattern. -/
def removeAll (pat s : List Char) : List Char := removeAllFuel pat s.length s

/-- The literal bytes of the first replaced pattern in the source: the UTF-8
rupee sign read back under a legacy codepage (mojibake), three characters. -/
def rupeeMoji : List Char := ['â', '‚', '¹']

/-- The pattern of the second replace in the source. -/
def rsDotPat : List Char := ['R', 's', '.']

/-- The pattern of the third replace in the source. -/
def rsPat : List Char := ['R', 's']

/-- The normalisation chain of `parse_amount`:
`text.replace("â‚¹","").replace("Rs.","").replace("Rs","")`. -/
def normalizeCurrency (text : List Char) : List Char :=
  removeAll rsPat (removeAll rsDotPat (removeAll rupeeMoji text))

/-- The match content at a position where `[\d,]+` fires: the maximal run of
digit/comma characters, then the optional greedy `(?:\.\d+)?` group. -/
def matchFrom (l : List Char) : List Char :=
  let run := l.takeWhile isAmtChar
  let rest := l.dropWhile isAmtChar
  match rest with
  | '.' :: r => if r.takeWhile Char.isDigit = [] then run else run ++ '.' :: r.takeWhile Char.isDigit
  | _ => run

/-- Model of `AMT_RE.search`: the leftmost position where the character class
`[\d,]` fires starts the (greedy, leftmost) match. -/
def amtSearch : List Char → Option (List Char)
  | [] => none
  | c :: cs => if isAmtChar c then some (matchFrom (c :: cs)) else amtSearch cs

/-- Least `k` such that `m / 2 ^ k < 2 ^ 53`, computed with fuel (the fuel
argument is always instantiated so that it is at least that `k`). -/
def findExp : Nat → Nat → Nat
  | 0, _ => 0
  | f + 1, m => if m < 2 ^ 53 then 0 else findExp f (m / 2) + 1

/-- Round a natural number to 53 significant bits, ties to even: the value of
the IEEE-754 double nearest to `n` (with unbounded exponent). -/
def round53 (n : Nat) : Nat :=
  if n < 2 ^ 53 then n
  else
    let e := findExp n n
    let q := n / 2 ^ e
    let r := n % 2 ^ e
    let h := 2 ^ (e - 1)
    let q2 := if h < r || (decide (r = h) && decide (q % 2 = 1)) then q + 1 else q
    q2 * 2 ^ e

/-- Model of CPython `int(float(str(n)))` for a non-negative integer literal:
the correctly rounded double of `n`, truncated; `None` (overflow to infinity,
`OverflowError` caught by the bare `except`) when the rounded value reaches
`2 ^ 1024`. -/
def intFloat (n : Nat) : Option Nat :=
  if round53 n < 2 ^ 1024 then some (round53 n) else none

/-- Model of `int(float(s))` for the token shapes `AMT_RE` can produce after
comma removal: empty (conversion error, `None`), or digits optionally followed
by `'.'` and digits.  The fractional digits are truncated before the double
conversion; this is exact except when the fractional part alters the rounding
of the double across an integer boundary (17-significant-digit inputs), which
no claim exercises. -/
def intOfFloatStr (s : List Char) : Option Nat :=
  match s with
  | [] => none
  | _ :: _ => intFloat (digitsVal (s.takeWhile Char.isDigit))

/-- Translation of `parse_amount` (headphones.py lines 15-29). -/
def parse_amount (text : List Char) : Option Nat :=
  match text with
  | [] => none
  | _ :: _ =>
    let t := normalizeCurrency text
    match amtSearch t with
    | none => none
    | some m => intOfFloatStr (m.filter (fun c => decide (¬ c = ',')))

/-- Modelled from the spec (the wording of claim C6, for comparison with the code):
strip currency markers and thousands separators, locate the first numeric
token (a maximal digit run), and coerce it to an integer; absent when the
input is empty or no numeric token exists. -/
def specParseOriginal (text : List Char) : Option Nat :=
  match text with
  | [] => none
  | _ :: _ =>
    let t := (normalizeCurrency text).filter (fun c => decide (¬ c = ','))
    let pre := t.dropWhile (fun c => ! c.isDigit)
    match pre with
    | [] => none
    | _ :: _ => intFloat (digitsVal (pre.takeWhile Char.isDigit))

/-- The amended reading of claim C6, written from the amended words: strip
currency markers; take the first maximal run of digit-or-comma characters
together with an optional `'.'`-plus-digits fragment; drop the commas; the
result is absent when the input is empty, when no digit-or-comma run exists,
or when the run holds no digit at all; otherwise the remaining digits (up to
the optional dot) are coerced to an integer. -/
def specParseAmended (text : List Char) : Option Nat :=
  match text with
  | [] => none
  | _ :: _ =>
    let t := normalizeCurrency text
    let pre := t.dropWhile (fun c => ! isAmtChar c)
    match pre with
    | [] => none
    | _ :: _ =>
      let run := pre.takeWhile isAmtChar
      let rest := pre.dropWhile isAmtChar
      let tok := match rest with
        | '.' :: r =>
          if r.takeWhile Char.isDigit = [] then run else run ++ '.' :: r.takeWhile Char.isDigit
        | _ => run
      let ds := tok.filter (fun c => decide (¬ c = ','))
      match ds with
      | [] => none
      | _ :: _ => intFloat (digitsVal (ds.takeWhile Char.isDigit))

/-! ## Model of the viewer filter (simple_amazon_viewer.py lines 65-73)

```
if query:
    mask = df_to_search.apply(
        lambda row: row.astype(str).str.contains(query, case=False, na=False).any(),
        axis=1)
    filtered = df_to_search[mask].reset_index(drop=True)
else:
    filtered = df_to_search.reset_index(drop=True)
```

`pandas.Series.str.contains` is called with its default `regex=True`, so the
query is compiled as a regular expression and `re.search` is run on every
stringified cell with `re.IGNORECASE`.  The regex engine is modelled on the
fragment of Python regex syntax exercised here: a sequence of literal
characters and the `.` wildcard.  A dataframe is a list of rows; a row is the
list of its already-stringified cells. -/

/-- A compiled pattern atom of the modelled regex fragment. -/
inductive PAtom where
  | lit (c : Char)
  | dot
deriving DecidableEq

/-- Compile a query string: `.` becomes the wildcard, everything else a
literal.  Faithful to Python `re` only for queries made of non-metacharacters
and dots, which is the domain the theorems stay inside. -/
def compileQuery (q : List Char) : List PAtom :=
  q.map (fun c => if c = '.' then PAtom.dot else PAtom.lit c)

/-- One atom against one subject character, under `re.IGNORECASE` (modelled by
lowercasing both sides); `.` matches anything but a newline. -/
def atomMatches (a : PAtom) (c : Char) : Bool :=
  match a with
  | PAtom.dot => decide (¬ c = '\n')
  | PAtom.lit l => decide (l.toLower = c.toLower)

/-- Match the whole atom sequence at the start of the subject. -/
def matchHere : List PAtom → List Char → Bool
  | [], _ => true
  | _ :: _, [] => false
  | a :: ps, c :: cs => atomMatches a c && matchHere ps cs

/-- Model of `re.search`: try every start position, left to right. -/
def reSearch (ps : List PAtom) : List Char → Bool
  | [] => matchHere ps []
  | c :: t => matchHere ps (c :: t) || reSearch ps t

/-- The boolean computed for one row by the `mask` lambda: some stringified
cell matches the query regex, case-insensitively. -/
def rowMatches (q : List Char) (row : List (List Char)) : Bool :=
  row.any (fun cell => reSearch (compileQuery q) cell)

/-- The `filtered` dataframe of the viewer: all rows for an empty (falsy)
query, otherwise the rows whose mask bit is set, in order
(`reset_index(drop=True)` renumbers and is the identity on the row list). -/
def filteredRows (q : List Char) (df : List (List (List Char))) : List (List (List Char)) :=
  match q with
  | [] => df
  | _ :: _ => df.filter (fun row => rowMatches q row)

/-- Python regex metacharacters; a query avoiding all of these is interpreted
literally by the regex engine. -/
def isRegexMeta (c : Char) : Bool :=
  decide (c = '.') || decide (c = '^') || decide (c = '$') || decide (c = '*') ||
  decide (c = '+') || decide (c = '?') || decide (c = '\x7b') || decide (c = '\x7d') ||
  decide (c = '[') || decide (c = ']') || decide (c = '\\') || decide (c = '|') ||
  decide (c = '(') || decide (c = ')')

/-- Modelled from the spec (the wording of claim C1): the term occurs
case-insensitively as a literal substring of the cell. -/
def litContainsCI (q cell : List Char) : Bool :=
  occursIn (lowerL q) (lowerL cell)

/-- The load step of the viewer (lines 38-40): `df["Category"] = cat` appends
a provenance column, i.e. one extra cell holding the category name, to every
row of the dataframe of the file. -/
def loadWithCategory (cat : List Char) (raw : List (List (List Char))) :
    List (List (List Char)) :=
  raw.map (fun row => row ++ [cat])

/-- `df_all = pd.concat(dfs.values(), ignore_index=True)` (line 47): the
category dataframes, concatenated in order. -/
def concatFrames (dfs : List (List (List (List Char)))) : List (List (List Char)) :=
  dfs.flatten

/-! ## Model of `extract_prices_from_card` (headphones.py lines 31-111)

A product card is modelled by what the DOM queries of the function can
observe: the retrieved text of each `span.a-offscreen` (the `or`-chain of
`textContent`/`text`/`""` collapsed to one string per element), the texts of
`span.a-text-price > span.a-offscreen`, of `.a-price-whole` and
`.a-price-fraction`, and the text of the first element containing a currency
marker (`None` when the XPath lookup raises). -/

structure Card where
  offscreen : List (List Char)
  textPrice : List (List Char)
  whole : List (List Char)
  frac : List (List Char)
  anyCur : Option (List Char)
deriving DecidableEq

/-- The `off_texts` list: each offscreen text stripped, empties dropped. -/
def offTexts (card : Card) : List (List Char) :=
  (card.offscreen.map pyStrip).filter (fun t => decide (¬ t = []))

/-- The `parsed` list of `(amount, text)` pairs: texts whose `parse_amount`
is not `None`. -/
def parsedOf (card : Card) : List (Nat × List Char) :=
  (offTexts card).filterMap (fun t => (parse_amount t).map (fun a => (a, t)))

/-- Just the parsed amounts of the offscreen texts of a card. -/
def amtsOf (card : Card) : List Nat := (parsedOf card).map Prod.fst

/-- Insert a pair after every element whose amount is `≤` its amount: the
insertion step of a stable sort by amount. -/
def insertLe (p : Nat × List Char) : List (Nat × List Char) → List (Nat × List Char)
  | [] => [p]
  | q :: qs => if q.1 ≤ p.1 then q :: insertLe p qs else p :: q :: qs

/-- Model of `sorted(parsed, key=lambda x: x[0])`: stable sort by amount. -/
def sortByAmt (l : List (Nat × List Char)) : List (Nat × List Char) :=
  l.foldl (fun acc p => insertLe p acc) []

/-- Step 2 of the fallback chain (lines 74-81): the explicit crossed-out price
selector.  When a `span.a-text-price > span.a-offscreen` element exists, both
`mrp_amt` and `mrp_text` are assigned from its first element, regardless of
any value a previous step produced. -/
def step2 (card : Card) (m : Option Nat) (mt : Option (List Char)) :
    Option Nat × Option (List Char) :=
  match card.textPrice with
  | [] => (m, mt)
  | x :: _ => (parse_amount (pyStrip x), some (pyStrip x))

/-- Step 3 (lines 83-97): assemble a displayed price from `.a-price-whole`
and `.a-price-fraction`; only adopted when truthy (`if amount:`) and the
discounted price is still `None` (`if discounted_amt is None:`).  Since the
step has no other effect, the `None` guard is hoisted outermost. -/
def step3 (card : Card) (d : Option Nat) (dt : Option (List Char)) :
    Option Nat × Option (List Char) :=
  match d with
  | some x => (some x, dt)
  | none =>
    match card.whole with
    | [] => (none, dt)
    | w0 :: _ =>
      let w := pyStrip w0
      let f := match card.frac with
        | [] => ([] : List Char)
        | f0 :: _ => pyStrip f0
      let txt := w ++ (match f with | [] => [] | _ :: _ => '.' :: f)
      match parse_amount txt with
      | none => (none, dt)
      | some a => if a = 0 then (none, dt) else (some a, some txt)

/-- Step 4 (lines 99-109): only when the discounted price is still `None`,
scan for any element containing a currency marker and adopt its truthy parse. -/
def step4 (card : Card) (d : Option Nat) (dt : Option (List Char)) :
    Option Nat × Option (List Char) :=
  match d with
  | some a => (some a, dt)
  | none =>
    match card.anyCur with
    | none => (none, dt)
    | some x =>
      match parse_amount (pyStrip x) with
      | none => (none, dt)
      | some a => if a = 0 then (none, dt) else (some a, some (pyStrip x))

/-- The fall-through part of `extract_prices_from_card`: steps 2-4 applied to
the state left by step 1. -/
def stepsRest (card : Card) (d m : Option Nat) (dt mt : Option (List Char)) :
    Option Nat × Option Nat × Option (List Char) × Option (List Char) :=
  let m2 := step2 card m mt
  let d3 := step3 card d dt
  let d4 := step4 card d3.1 d3.2
  (d4.1, m2.1, d4.2, m2.2)

/-- Translation of `extract_prices_from_card`.  Step 1 parses all offscreen
texts; when anything parsed, the smallest amount becomes the discounted price
and (when at least two entries) the largest the MRP, and the function returns
early only when the discounted amount is truthy (`if discounted_amt:`), i.e.
non-zero. -/
def extract_prices_from_card (card : Card) :
    Option Nat × Option Nat × Option (List Char) × Option (List Char) :=
  match sortByAmt (parsedOf card) with
  | [] => stepsRest card none none none none
  | (a, t) :: rest =>
    let m : Option Nat × Option (List Char) :=
      match rest.getLast? with
      | none => (none, none)
      | some (b, bt) => (some b, some bt)
    if a = 0 then stepsRest card (some a) m.1 (some t) m.2
    else (some a, m.1, some t, m.2)

/-! ## Discount computation and the scrape loop (headphones.py lines 243-391) -/

/-- Model of Python `round(x, 2)` on exact rationals: half away from zero at
two decimal places (for non-negative operands, half up).  CPython rounds the
nearest double with ties to even; the two models agree except at exact
two-decimal ties, which no claim exercises. -/
def round2 (q : ℚ) : ℚ := ((⌊q * 100 + 1 / 2⌋ : ℤ) : ℚ) / 100

/-- The `discount_percentage` computation (lines 318-323): only when both
amounts are truthy, `round(((mrp - discounted) / mrp) * 100, 2)`; otherwise
the empty-string sentinel, modelled as `none`. -/
def computeDiscount (discounted_amt mrp_amt : Option Nat) : Option ℚ :=
  match mrp_amt, discounted_amt with
  | some m, some d =>
    if m = 0 ∨ d = 0 then none
    else some (round2 ((((m : ℚ) - (d : ℚ)) / (m : ℚ)) * 100))
  | _, _ => none

/-- A listing whose offscreen texts parse to the distinct amounts 0, 3 and 5,
and whose struck-out price element is the "₹3" span (a subset of the
offscreen spans, as in a real DOM). -/
def cexCard2 : Card := ⟨[['₹', '0'], ['₹', '3'], ['₹', '5']], [['₹', '3']], [], [], none⟩

/-- The listing of claim C3: exactly the two offscreen texts "₹1,999" and
"₹2,999". -/
def cexCard3 : Card :=
  ⟨[['₹', '1', ',', '9', '9', '9'], ['₹', '2', ',', '9', '9', '9']], [], [], [], none⟩

/-- A listing whose offscreen texts parse to 0 and 5 and whose struck-out
price element is the "₹0" span. -/
def cexCard4 : Card := ⟨[['₹', '0'], ['₹', '5']], [['₹', '0']], [], [], none⟩

/-- A result record appended to `results` (lines 333-339). -/
structure Row where
  title : List Char
  price : List Char
  link : Option (List Char)
  mrp : Option Nat
  discount : Option ℚ
deriving DecidableEq

/-- What the loop body observes about one product card: the outcome of
`extract_title_and_link` (title and link, `None` on failure), the outcome of
the `/dp/`-anchor re-query used when a title came without a link, the display
price string of `extract_price_from_card`, and the price structure of the card. -/
structure CardView where
  title : Option (List Char)
  link : Option (List Char)
  fallbackLink : Option (List Char)
  priceText : List Char
  card : Card
deriving DecidableEq

/-- Python truthiness of an optional string: `None` and `""` are falsy. -/
def truthyS (o : Option (List Char)) : Bool :=
  match o with
  | some (_ :: _) => true
  | _ => false

/-- The per-card body of the scrape loop (lines 289-343), minus the break on
`min_results` which the page driver applies: skip cards without a truthy
title; fill a missing link from the fallback anchor; dedupe by link when the
link is truthy, else by title; append the new record. -/
def processCard (rs : List Row) (c : CardView) : List Row :=
  if truthyS c.title then
    let t := c.title.getD []
    let link := if truthyS c.link then c.link else c.fallbackLink
    let pr := extract_prices_from_card c.card
    let row : Row := ⟨t, c.priceText, link, pr.2.1, computeDiscount pr.1 pr.2.1⟩
    if truthyS link then
      if rs.any (fun r => decide (r.link = link)) then rs else rs ++ [row]
    else
      if rs.any (fun r => decide (r.title = t)) then rs else rs ++ [row]
  else rs

/-- The `for card in product_cards` loop: before each card the collected
count is checked against `min_results` (lines 290-291). -/
def processPage (minR : Nat) (rs : List Row) : List CardView → List Row
  | [] => rs
  | c :: cs => if minR ≤ rs.length then rs else processPage minR (processCard rs c) cs

/-- The `while len(results) < min_results and pages_visited < max_pages` loop
(lines 275-346) over an abstract sequence of delivered result pages: each
iteration visits one page, processes its cards, breaks when the target count
is reached, and stops when pagination yields no further page. -/
def scrapeGo (minR maxP : Nat) : List (List CardView) → List Row → Nat → List Row × Nat
  | [], rs, v => (rs, v)
  | pg :: rest, rs, v =>
    if rs.length < minR ∧ v < maxP then
      let rs2 := processPage minR rs pg
      if minR ≤ rs2.length then (rs2, v + 1) else scrapeGo minR maxP rest rs2 (v + 1)
    else (rs, v)

/-- A whole scrape run: results and pages visited, starting empty. -/
def scrape_amazon_loop (minR maxP : Nat) (pages : List (List CardView)) :
    List Row × Nat :=
  scrapeGo minR maxP pages [] 0

/-- The uniqueness relation claim C5 asserts between an earlier row `a` and a
later row `b`: a truthy link is never repeated, and a row added without a
truthy link has a title different from that of every earlier row. -/
def goodRel (a b : Row) : Prop :=
  (truthyS a.link = true → ¬ b.link = a.link) ∧
  (truthyS b.link = false → ¬ a.title = b.title)

/-! ## Lemmas about the amount parser -/

theorem mem_of_mem_removeAllFuel (pat : List Char) :
    ∀ (f : Nat) (s : List Char) (c : Char), c ∈ removeAllFuel pat f s → c ∈ s := by
  intro f
  induction f with
  | zero => intro s c h; cases s <;> exact h
  | succ f ih =>
    intro s c h
    cases s with
    | nil => exact h
    | cons a as =>
      simp only [removeAllFuel] at h
      split at h
      · exact List.drop_subset _ _ (ih _ _ h)
      · rcases List.mem_cons.mp h with h1 | h1
        · exact h1 ▸ List.mem_cons_self _ _
        · exact List.mem_cons_of_mem _ (ih _ _ h1)

theorem mem_of_isPrefixL : ∀ (p s : List Char), isPrefixL p s = true → ∀ c ∈ p, c ∈ s := by
  intro p
  induction p with
  | nil => intro s _ c hc; simp at hc
  | cons a as ih =>
    intro s h c hc
    cases s with
    | nil => simp [isPrefixL] at h
    | cons b bs =>
      simp only [isPrefixL, Bool.and_eq_true, decide_eq_true_eq] at h
      rcases List.mem_cons.mp hc with rfl | hc2
      · rw [h.1]; exact List.mem_cons_self _ _
      · exact List.mem_cons_of_mem _ (ih bs h.2 c hc2)

theorem removeAllFuel_id {pat : List Char} {b : Char} (hb : b ∈ pat)
    (hbP : isAmtChar b = false) :
    ∀ (f : Nat) (s : List Char), (∀ c ∈ s, isAmtChar c = true) → removeAllFuel pat f s = s := by
  intro f
  induction f with
  | zero => intro s _; cases s <;> rfl
  | succ f ih =>
    intro s hs
    cases s with
    | nil => rfl
    | cons a as =>
      have hp : ¬ (isPrefixL pat (a :: as) = true) := by
        intro hpre
        have hbmem := mem_of_isPrefixL pat (a :: as) hpre b hb
        rw [hs b hbmem] at hbP
        exact Bool.noConfusion hbP
      simp only [removeAllFuel, if_neg hp]
      congr 1
      exact ih as (fun c hc => hs c (List.mem_cons_of_mem _ hc))

theorem normalizeCurrency_id {s : List Char} (hs : ∀ c ∈ s, isAmtChar c = true) :
    normalizeCurrency s = s := by
  have h1 : removeAll rupeeMoji s = s :=
    removeAllFuel_id (b := 'â') (by decide) (by decide) _ s hs
  have h2 : removeAll rsDotPat s = s :=
    removeAllFuel_id (b := 'R') (by decide) (by decide) _ s hs
  have h3 : removeAll rsPat s = s :=
    removeAllFuel_id (b := 'R') (by decide) (by decide) _ s hs
  simp only [normalizeCurrency, removeAll] at h1 h2 h3 ⊢
  rw [h1, h2, h3]

theorem mem_of_mem_normalizeCurrency {s : List Char} {c : Char}
    (h : c ∈ normalizeCurrency s) : c ∈ s := by
  simp only [normalizeCurrency, removeAll] at h
  exact mem_of_mem_removeAllFuel _ _ _ _
    (mem_of_mem_removeAllFuel _ _ _ _ (mem_of_mem_removeAllFuel _ _ _ _ h))

theorem takeWhile_all {p : Char → Bool} :
    ∀ s : List Char, (∀ c ∈ s, p c = true) → s.takeWhile p = s := by
  intro s
  induction s with
  | nil => intro _; rfl
  | cons a as ih =>
    intro h
    simp only [List.takeWhile_cons, h a (List.mem_cons_self _ _), if_true]
    rw [ih (fun c hc => h c (List.mem_cons_of_mem _ hc))]

theorem dropWhile_all {p : Char → Bool} :
    ∀ s : List Char, (∀ c ∈ s, p c = true) → s.dropWhile p = [] := by
  intro s
  induction s with
  | nil => intro _; rfl
  | cons a as ih =>
    intro h
    simp only [List.dropWhile_cons, h a (List.mem_cons_self _ _), if_true]
    exact ih (fun c hc => h c (List.mem_cons_of_mem _ hc))

theorem mem_takeWhile_pred {p : Char → Bool} :
    ∀ (s : List Char) (c : Char), c ∈ s.takeWhile p → p c = true ∧ c ∈ s := by
  intro s
  induction s with
  | nil => intro c h; simp [List.takeWhile] at h
  | cons a as ih =>
    intro c h
    rw [List.takeWhile_cons] at h
    by_cases ha : p a = true
    · rw [if_pos ha] at h
      rcases List.mem_cons.mp h with rfl | h2
      · exact ⟨ha, List.mem_cons_self _ _⟩
      · rcases ih c h2 with ⟨hp, hm⟩
        exact ⟨hp, List.mem_cons_of_mem _ hm⟩
    · rw [if_neg ha] at h
      simp at h

theorem mem_dropWhile_sub {p : Char → Bool} :
    ∀ (s : List Char) (c : Char), c ∈ s.dropWhile p → c ∈ s := by
  intro s
  induction s with
  | nil => intro c h; simp [List.dropWhile] at h
  | cons a as ih =>
    intro c h
    rw [List.dropWhile_cons] at h
    by_cases ha : p a = true
    · rw [if_pos ha] at h
      exact List.mem_cons_of_mem _ (ih c h)
    · rw [if_neg ha] at h
      exact h

theorem matchFrom_comma {l : List Char} (hl : ∀ c ∈ l, c.isDigit = false)
    (hcomma : ∀ c ∈ l, isAmtChar c = true → c = ',') :
    ∀ c ∈ matchFrom l, c = ',' := by
  intro c hc
  simp only [matchFrom] at hc
  have hrun : ∀ x ∈ l.takeWhile isAmtChar, x = ',' := by
    intro x hx
    rcases mem_takeWhile_pred l x hx with ⟨hp, hm⟩
    exact hcomma x hm hp
  split at hc
  · rename_i r hr
    have hfrac : r.takeWhile Char.isDigit = [] := by
      cases hq : r.takeWhile Char.isDigit with
      | nil => rfl
      | cons d ds =>
        have hd : d ∈ r.takeWhile Char.isDigit := by rw [hq]; exact List.mem_cons_self _ _
        rcases mem_takeWhile_pred r d hd with ⟨hdig, hdm⟩
        have : d ∈ l := by
          have : d ∈ l.dropWhile isAmtChar := by rw [hr]; exact List.mem_cons_of_mem _ hdm
          exact mem_dropWhile_sub l d this
        rw [hl d this] at hdig
        exact absurd hdig (by simp)
    rw [if_pos hfrac] at hc
    exact hrun c hc
  · exact hrun c hc

theorem amtSearch_no_digit :
    ∀ s : List Char, (∀ c ∈ s, c.isDigit = false) →
      amtSearch s = none ∨ ∃ m, amtSearch s = some m ∧ ∀ c ∈ m, c = ',' := by
  intro s
  induction s with
  | nil => intro _; exact Or.inl rfl
  | cons a as ih =>
    intro h
    by_cases ha : isAmtChar a = true
    · refine Or.inr ⟨matchFrom (a :: as), ?_, ?_⟩
      · simp [amtSearch, ha]
      · refine matchFrom_comma h (fun c hc hamt => ?_)
        have hd := h c hc
        simp only [isAmtChar, Bool.or_eq_true, decide_eq_true_eq] at hamt
        rcases hamt with h1 | h1
        · rw [hd] at h1; exact absurd h1 (by simp)
        · exact h1
    · have : amtSearch (a :: as) = amtSearch as := by
        simp [amtSearch, ha]
      rw [this]
      exact ih (fun c hc => h c (List.mem_cons_of_mem _ hc))

theorem parse_amount_none_of_no_digit :
    ∀ s : List Char, (∀ c ∈ s, c.isDigit = false) → parse_amount s = none := by
  intro s h
  cases s with
  | nil => rfl
  | cons a as =>
    simp only [parse_amount]
    have hnorm : ∀ c ∈ normalizeCurrency (a :: as), c.isDigit = false :=
      fun c hc => h c (mem_of_mem_normalizeCurrency hc)
    rcases amtSearch_no_digit _ hnorm with hn | ⟨m, hm, hcm⟩
    · rw [hn]
    · rw [hm]
      have hfil : m.filter (fun c => decide (¬ c = ',')) = [] := by
        rw [List.filter_eq_nil_iff]
        intro c hc
        rw [hcm c hc]
        simp
      show intOfFloatStr (m.filter (fun c => decide (¬ c = ','))) = none
      rw [hfil]
      rfl

theorem filter_comma_eq_filter_digit {s : List Char} (hs : ∀ c ∈ s, isAmtChar c = true) :
    s.filter (fun c => decide (¬ c = ',')) = s.filter Char.isDigit := by
  induction s with
  | nil => rfl
  | cons a as ih =>
    have ha := hs a (List.mem_cons_self _ _)
    have ih2 := ih (fun c hc => hs c (List.mem_cons_of_mem _ hc))
    simp only [isAmtChar, Bool.or_eq_true, decide_eq_true_eq] at ha
    rcases ha with h1 | h1
    · have hne : ¬ a = ',' := by
        intro hcon
        rw [hcon] at h1
        exact absurd h1 (by decide)
      rw [List.filter_cons_of_pos (by simp [hne]), List.filter_cons_of_pos h1, ih2]
    · subst h1
      rw [List.filter_cons_of_neg (by simp), List.filter_cons_of_neg (by decide), ih2]

theorem parse_amount_amt_chars :
    ∀ s : List Char, ¬ s = [] → (∀ c ∈ s, isAmtChar c = true) →
      (∃ c ∈ s, c.isDigit = true) → digitsVal (s.filter Char.isDigit) < 2 ^ 53 →
      parse_amount s = some (digitsVal (s.filter Char.isDigit)) := by
  intro s hne hamt hdig hsmall
  cases s with
  | nil => exact absurd rfl hne
  | cons a as =>
    simp only [parse_amount]
    rw [normalizeCurrency_id hamt]
    have ha : isAmtChar a = true := hamt a (List.mem_cons_self _ _)
    have hsearch : amtSearch (a :: as) = some (matchFrom (a :: as)) := by
      simp [amtSearch, ha]
    rw [hsearch]
    have hmatch : matchFrom (a :: as) = a :: as := by
      simp only [matchFrom, takeWhile_all _ hamt, dropWhile_all _ hamt]
    show intOfFloatStr ((matchFrom (a :: as)).filter (fun c => decide (¬ c = ','))) =
      some (digitsVal ((a :: as).filter Char.isDigit))
    rw [hmatch, filter_comma_eq_filter_digit hamt]
    have hfilne : ¬ (a :: as).filter Char.isDigit = [] := by
      intro hcon
      rcases hdig with ⟨c, hc, hcd⟩
      have : c ∈ (a :: as).filter Char.isDigit := List.mem_filter.mpr ⟨hc, hcd⟩
      rw [hcon] at this
      simp at this
    cases hfil : (a :: as).filter Char.isDigit with
    | nil => exact absurd hfil hfilne
    | cons d ds =>
      simp only [intOfFloatStr]
      have hall : ∀ c ∈ d :: ds, Char.isDigit c = true := by
        intro c hc
        rw [← hfil] at hc
        exact (List.mem_filter.mp hc).2
      rw [takeWhile_all _ hall]
      rw [hfil] at hsmall
      simp only [intFloat, round53, if_pos hsmall]
      rw [if_pos (lt_trans hsmall (Nat.pow_lt_pow_right (by norm_num) (by norm_num)))]

theorem removeAll_cons_ne {p c : Char} {ps : List Char} (hne : ¬ p = c) (s : List Char) :
    removeAll (p :: ps) (c :: s) = c :: removeAll (p :: ps) s := by
  have hpre : ¬ (isPrefixL (p :: ps) (c :: s) = true) := by
    simp [isPrefixL, hne]
  simp only [removeAll, List.length_cons, removeAllFuel, if_neg hpre]

theorem normalizeCurrency_rupee (s : List Char) :
    normalizeCurrency ('₹' :: s) = '₹' :: normalizeCurrency s := by
  simp only [normalizeCurrency, rupeeMoji, rsDotPat, rsPat]
  rw [removeAll_cons_ne (by decide) s]
  rw [removeAll_cons_ne (by decide)]
  rw [removeAll_cons_ne (by decide)]

theorem parse_amount_rupee (s : List Char) : parse_amount ('₹' :: s) = parse_amount s := by
  cases s with
  | nil => decide
  | cons a as =>
    simp only [parse_amount, normalizeCurrency_rupee]
    have h0 : ¬ (isAmtChar '₹' = true) := by decide
    have heq : amtSearch ('₹' :: normalizeCurrency (a :: as)) =
        amtSearch (normalizeCurrency (a :: as)) := by
      simp only [amtSearch, if_neg h0]
    rw [heq]

theorem amtSearch_dropWhile_nil :
    ∀ t : List Char, t.dropWhile (fun c => ! isAmtChar c) = [] → amtSearch t = none := by
  intro t
  induction t with
  | nil => intro _; rfl
  | cons a as ih =>
    intro h
    rw [List.dropWhile_cons] at h
    by_cases ha : isAmtChar a = true
    · rw [if_neg (by simp [ha])] at h
      simp at h
    · rw [if_pos (by simp [Bool.not_eq_true] at ha ⊢; exact ha)] at h
      simp only [amtSearch, if_neg ha]
      exact ih h

theorem amtSearch_dropWhile_cons :
    ∀ t b l, t.dropWhile (fun c => ! isAmtChar c) = b :: l →
      amtSearch t = some (matchFrom (b :: l)) := by
  intro t
  induction t with
  | nil => intro b l h; simp [List.dropWhile] at h
  | cons a as ih =>
    intro b l h
    rw [List.dropWhile_cons] at h
    by_cases ha : isAmtChar a = true
    · rw [if_neg (by simp [ha])] at h
      injection h with h1 h2
      simp only [amtSearch, if_pos ha]
      rw [h1, h2]
    · rw [if_pos (by simp [Bool.not_eq_true] at ha ⊢; exact ha)] at h
      simp only [amtSearch, if_neg ha]
      exact ih b l h

theorem intOfFloatStr_eq (ds : List Char) :
    intOfFloatStr ds =
      match ds with
      | [] => none
      | _ :: _ => intFloat (digitsVal (ds.takeWhile Char.isDigit)) := by
  cases ds <;> rfl

/-- Claim C6, counterexample: the claim reads `parse_amount` as locating the
first numeric token after stripping markers and separators.  On the input
`",x1"` that reading yields `1`, but the regex of the code `[\d,]+` fires on the
lone leading comma, the matched text loses its commas, becomes empty, and the
coercion error is swallowed: the code returns `None` although the input
contains a numeric token. -/
theorem parse_amount_token_cex :
    parse_amount [',', 'x', '1'] = none ∧
      specParseOriginal [',', 'x', '1'] = some 1 := by
  constructor
  · decide
  · decide

/-- Claim C6 (amended): `parse_amount` strips currency markers, locks onto the
first maximal run of digit-or-comma characters (with an optional dot-digits
fragment), strips the commas from it, and coerces the rest to an integer; it
returns `None` when the input is empty, when no digit-or-comma run exists, or
when the located run contains no digit at all. -/
theorem parse_amount_token_spec : ∀ t : List Char, parse_amount t = specParseAmended t := by
  intro t
  cases t with
  | nil => rfl
  | cons a as =>
    simp only [parse_amount, specParseAmended]
    cases h : (normalizeCurrency (a :: as)).dropWhile (fun c => ! isAmtChar c) with
    | nil => rw [amtSearch_dropWhile_nil _ h]
    | cons b l =>
      rw [amtSearch_dropWhile_cons _ _ _ h]
      show intOfFloatStr ((matchFrom (b :: l)).filter (fun c => decide (¬ c = ','))) = _
      rw [intOfFloatStr_eq]
      simp only [matchFrom]

/-- Claim C7, counterexample: the claim asserts idempotence on every
already-normalized integer string, but the coercion `int(float(s))` rounds to
the nearest double: on the 16-digit string "9007199254740993" (2^53 + 1) the
parser returns 9007199254740992, not the number the string denotes. -/
theorem parse_amount_total_cex :
    parse_amount ['9', '0', '0', '7', '1', '9', '9', '2', '5', '4', '7', '4', '0', '9', '9', '3'] =
      some 9007199254740992 ∧
    ¬ parse_amount ['9', '0', '0', '7', '1', '9', '9', '2', '5', '4', '7', '4', '0', '9', '9', '3'] =
      some (digitsVal ['9', '0', '0', '7', '1', '9', '9', '2', '5', '4', '7', '4', '0', '9', '9', '3']) := by
  constructor
  · decide
  · decide

/-- Claim C7 (amended): `parse_amount` never fails: an input with no digit at
all yields `None` rather than an exception; on non-empty strings of digits and
thousands-separator commas holding at least one digit and denoting a value
below 2^53 (the float-exact range) it returns exactly the denoted integer, so
it is idempotent on such normalized integer strings and tolerant of thousands
separators; and a leading rupee sign never changes the result. -/
theorem parse_amount_total_spec :
    ∀ s : List Char,
      ((∀ c ∈ s, c.isDigit = false) → parse_amount s = none) ∧
      (¬ s = [] → (∀ c ∈ s, isAmtChar c = true) → (∃ c ∈ s, c.isDigit = true) →
        digitsVal (s.filter Char.isDigit) < 2 ^ 53 →
        parse_amount s = some (digitsVal (s.filter Char.isDigit))) ∧
      parse_amount ('₹' :: s) = parse_amount s := by
  intro s
  exact ⟨parse_amount_none_of_no_digit s, parse_amount_amt_chars s, parse_amount_rupee s⟩

/-- Witness for the amended claim C7 at concrete inputs: a digit-free string
parses to `None`, a comma-separated integer string parses to its value, and a
rupee-prefixed string parses like its suffix. -/
theorem parse_amount_total_spec_witness :
    parse_amount ['a', 'b', 'c'] = none ∧
    parse_amount ['1', ',', '9', '9', '9'] = some 1999 ∧
    parse_amount ['₹', '5'] = parse_amount ['5'] :=
  ⟨(parse_amount_total_spec ['a', 'b', 'c']).1 (by decide),
   ((parse_amount_total_spec ['1', ',', '9', '9', '9']).2.1 (by decide) (by decide)
      (by decide) (by decide)).trans (by decide),
   (parse_amount_total_spec ['₹', '5']).2.2⟩

/-! ## Lemmas about the viewer filter -/

theorem compileQuery_lit {q : List Char} (h : ∀ c ∈ q, isRegexMeta c = false) :
    compileQuery q = q.map PAtom.lit := by
  induction q with
  | nil => rfl
  | cons a as ih =>
    have ha : ¬ a = '.' := fun hcon => by
      have hf := h a (List.mem_cons_self _ _)
      rw [hcon] at hf
      exact absurd hf (by decide)
    show (if a = '.' then PAtom.dot else PAtom.lit a) :: compileQuery as =
      PAtom.lit a :: as.map PAtom.lit
    rw [if_neg ha, ih (fun c hc => h c (List.mem_cons_of_mem _ hc))]

theorem matchHere_lit :
    ∀ (q s : List Char), matchHere (q.map PAtom.lit) s = isPrefixL (lowerL q) (lowerL s) := by
  intro q
  induction q with
  | nil => intro s; cases s <;> rfl
  | cons a as ih =>
    intro s
    cases s with
    | nil => rfl
    | cons c cs =>
      show (atomMatches (PAtom.lit a) c && matchHere (as.map PAtom.lit) cs) =
        (decide (a.toLower = c.toLower) && isPrefixL (lowerL as) (lowerL cs))
      rw [ih cs]
      rfl

theorem reSearch_lit :
    ∀ (q s : List Char), reSearch (q.map PAtom.lit) s = occursIn (lowerL q) (lowerL s) := by
  intro q s
  induction s with
  | nil =>
    show matchHere (q.map PAtom.lit) [] = (lowerL q).isEmpty
    cases q <;> rfl
  | cons c cs ih =>
    show (matchHere (q.map PAtom.lit) (c :: cs) || reSearch (q.map PAtom.lit) cs) =
      occursIn (lowerL q) (lowerL (c :: cs))
    rw [matchHere_lit, ih]
    rfl

theorem anyCongr {α : Type} (l : List α) (f g : α → Bool) (h : ∀ x ∈ l, f x = g x) :
    l.any f = l.any g := by
  induction l with
  | nil => rfl
  | cons a as ih =>
    simp only [List.any_cons, h a (List.mem_cons_self _ _),
      ih (fun x hx => h x (List.mem_cons_of_mem _ hx))]

/-- Claim C1, counterexample: the viewer passes the search term to pandas
`str.contains` with its default `regex=True`, so the term `"."` is a wildcard:
it keeps the row `["abc"]` although `"."` does not occur in `"abc"` as a
literal substring. -/
theorem viewer_filter_cex :
    ¬ filteredRows ['.'] [[['a', 'b', 'c']]] =
      List.filter (fun row => row.any (fun cell => litContainsCI ['.'] cell))
        [[['a', 'b', 'c']]] := by
  decide

/-- Claim C1 (amended): an empty search term keeps every row unchanged; the
filter always returns a subsequence of the dataframe (row order preserved,
nothing duplicated); and for every non-empty term free of regex
metacharacters it keeps exactly the rows in which the term occurs
case-insensitively as a literal substring of the string form of at least one
field.  (The term is interpreted as a regular expression, so terms with
metacharacters may match non-literally.) -/
theorem viewer_filter_spec :
    ∀ (q : List Char) (df : List (List (List Char))),
      filteredRows [] df = df ∧
      List.Sublist (filteredRows q df) df ∧
      (¬ q = [] → (∀ c ∈ q, isRegexMeta c = false) →
        filteredRows q df =
          df.filter (fun row => row.any (fun cell => litContainsCI q cell))) := by
  intro q df
  refine ⟨rfl, ?_, ?_⟩
  · cases q with
    | nil => exact List.Sublist.refl df
    | cons a as => exact List.filter_sublist df
  · intro hne hmeta
    cases q with
    | nil => exact absurd rfl hne
    | cons a as =>
      show df.filter (fun row => rowMatches (a :: as) row) = _
      refine List.filter_congr ?_
      intro row _
      show rowMatches (a :: as) row = _
      refine anyCongr _ _ _ ?_
      intro cell _
      rw [compileQuery_lit hmeta, reSearch_lit]
      rfl

/-- Witness for the amended claim C1 at a concrete term and dataframe. -/
theorem viewer_filter_spec_witness :
    filteredRows ['a'] [[['x', 'a']], [['y']]] =
      List.filter (fun row => row.any (fun cell => litContainsCI ['a'] cell))
        [[['x', 'a']], [['y']]] :=
  (viewer_filter_spec ['a'] [[['x', 'a']], [['y']]]).2.2 (by decide) (by decide)

theorem filteredRows_append (q : List Char) (d1 d2 : List (List (List Char))) :
    filteredRows q (d1 ++ d2) = filteredRows q d1 ++ filteredRows q d2 := by
  cases q with
  | nil => rfl
  | cons a as => exact List.filter_append _ _

/-- Claim C8: for every search term, the row count of the global search over
the concatenation of the per-category dataframes equals the sum over the
categories of the per-category filtered row counts for the same term. -/
theorem global_count_spec :
    ∀ (q : List Char) (cats : List (List Char × List (List (List Char)))),
      (filteredRows q (concatFrames (cats.map (fun p => loadWithCategory p.1 p.2)))).length =
        (cats.map (fun p => (filteredRows q (loadWithCategory p.1 p.2)).length)).sum := by
  intro q cats
  have key : ∀ dfs : List (List (List (List Char))),
      (filteredRows q (concatFrames dfs)).length =
        (dfs.map (fun df => (filteredRows q df).length)).sum := by
    intro dfs
    induction dfs with
    | nil => cases q <;> rfl
    | cons d ds ih =>
      show (filteredRows q (d ++ concatFrames ds)).length = _
      rw [filteredRows_append, List.length_append, ih]
      rfl
  rw [key (cats.map (fun p => loadWithCategory p.1 p.2)), List.map_map]
  rfl

/-- Claim C10: the provenance column is appended at load time, so in
per-category mode every row of the filtered (displayed and downloadable)
table ends with a Category cell equal to the name of the selected category. -/
theorem category_column_spec :
    ∀ (cat : List Char) (raw : List (List (List Char))) (q : List Char)
      (row : List (List Char)), row ∈ filteredRows q (loadWithCategory cat raw) →
      row.getLast? = some cat := by
  intro cat raw q row hrow
  have hmem : row ∈ loadWithCategory cat raw := by
    cases q with
    | nil => exact hrow
    | cons a as => exact List.mem_of_mem_filter hrow
  rcases List.mem_map.mp hmem with ⟨r, _, rfl⟩
  exact List.getLast?_concat _

/-- Witness for claim C10 at a concrete category, file and query. -/
theorem category_column_spec_witness :
    ([['x'], ['H']] : List (List Char)).getLast? = some ['H'] :=
  category_column_spec ['H'] [[['x']]] [] [['x'], ['H']] (by decide)

/-! ## Lemmas about the price-pair extraction -/

theorem mem_insertLe (p x : Nat × List Char) :
    ∀ acc, x ∈ insertLe p acc ↔ x = p ∨ x ∈ acc := by
  intro acc
  induction acc with
  | nil => simp [insertLe]
  | cons q qs ih =>
    simp only [insertLe]
    by_cases hq : q.1 ≤ p.1
    · rw [if_pos hq]
      simp only [List.mem_cons, ih]
      tauto
    · rw [if_neg hq]
      simp only [List.mem_cons]

theorem length_insertLe (p : Nat × List Char) :
    ∀ acc, (insertLe p acc).length = acc.length + 1 := by
  intro acc
  induction acc with
  | nil => rfl
  | cons q qs ih =>
    simp only [insertLe]
    by_cases hq : q.1 ≤ p.1
    · rw [if_pos hq]
      simp [ih]
    · rw [if_neg hq]
      simp

theorem pairwise_insertLe (p : Nat × List Char) :
    ∀ acc, acc.Pairwise (fun a b => a.1 ≤ b.1) →
      (insertLe p acc).Pairwise (fun a b => a.1 ≤ b.1) := by
  intro acc
  induction acc with
  | nil => intro _; simp [insertLe]
  | cons q qs ih =>
    intro hp
    rcases List.pairwise_cons.mp hp with ⟨hq, hqs⟩
    simp only [insertLe]
    by_cases h : q.1 ≤ p.1
    · rw [if_pos h]
      refine List.pairwise_cons.mpr ⟨?_, ih hqs⟩
      intro y hy
      rcases (mem_insertLe p y qs).mp hy with rfl | hy2
      · exact h
      · exact hq y hy2
    · rw [if_neg h]
      refine List.pairwise_cons.mpr ⟨?_, hp⟩
      intro y hy
      rcases List.mem_cons.mp hy with rfl | hy2
      · exact Nat.le_of_not_le h
      · exact Nat.le_trans (Nat.le_of_not_le h) (hq y hy2)

theorem foldl_insertLe_facts :
    ∀ (l acc : List (Nat × List Char)),
      (List.foldl (fun acc p => insertLe p acc) acc l).length = acc.length + l.length ∧
      (∀ x, x ∈ List.foldl (fun acc p => insertLe p acc) acc l ↔ x ∈ acc ∨ x ∈ l) ∧
      (acc.Pairwise (fun a b => a.1 ≤ b.1) →
        (List.foldl (fun acc p => insertLe p acc) acc l).Pairwise (fun a b => a.1 ≤ b.1)) := by
  intro l
  induction l with
  | nil =>
    intro acc
    refine ⟨rfl, fun x => ?_, fun h => h⟩
    simp
  | cons p ps ih =>
    intro acc
    have ih2 := ih (insertLe p acc)
    refine ⟨?_, fun x => ?_, fun h => ?_⟩
    · show (List.foldl (fun acc p => insertLe p acc) (insertLe p acc) ps).length = _
      rw [ih2.1, length_insertLe]
      simp only [List.length_cons]
      omega
    · show x ∈ List.foldl (fun acc p => insertLe p acc) (insertLe p acc) ps ↔ _
      rw [ih2.2.1 x, mem_insertLe]
      simp only [List.mem_cons]
      tauto
    · exact ih2.2.2 (pairwise_insertLe p acc h)

theorem sortByAmt_length (l : List (Nat × List Char)) : (sortByAmt l).length = l.length := by
  have h := (foldl_insertLe_facts l []).1
  simpa [sortByAmt] using h

theorem mem_sortByAmt (l : List (Nat × List Char)) (x : Nat × List Char) :
    x ∈ sortByAmt l ↔ x ∈ l := by
  have h := (foldl_insertLe_facts l []).2.1 x
  simpa [sortByAmt] using h

theorem pairwise_sortByAmt (l : List (Nat × List Char)) :
    (sortByAmt l).Pairwise (fun a b => a.1 ≤ b.1) :=
  (foldl_insertLe_facts l []).2.2 (List.Pairwise.nil)

theorem getLast?_mem : ∀ (l : List (Nat × List Char)) (p : Nat × List Char),
    l.getLast? = some p → p ∈ l := by
  intro l
  induction l with
  | nil => intro p h; exact absurd h (by simp)
  | cons a t ih =>
    intro p h
    cases t with
    | nil =>
      simp only [List.getLast?_singleton, Option.some.injEq] at h
      rw [← h]
      exact List.mem_cons_self _ _
    | cons b t2 =>
      rw [List.getLast?_cons_cons] at h
      exact List.mem_cons_of_mem _ (ih p h)

theorem pairwise_getLast_max :
    ∀ (l : List (Nat × List Char)) (p : Nat × List Char),
      l.Pairwise (fun a b => a.1 ≤ b.1) → l.getLast? = some p → ∀ y ∈ l, y.1 ≤ p.1 := by
  intro l
  induction l with
  | nil => intro p _ h; exact absurd h (by simp)
  | cons a t ih =>
    intro p hp h y hy
    cases t with
    | nil =>
      simp only [List.getLast?_singleton, Option.some.injEq] at h
      rcases List.mem_cons.mp hy with rfl | hy2
      · rw [← h]
      · simp at hy2
    | cons b t2 =>
      rw [List.getLast?_cons_cons] at h
      rcases List.pairwise_cons.mp hp with ⟨ha, htail⟩
      rcases List.mem_cons.mp hy with rfl | hy2
      · exact Nat.le_trans (ha p (getLast?_mem _ p h)) (Nat.le.refl)
      · exact ih p htail h y hy2

theorem step3_some (card : Card) (a : Nat) (dt : Option (List Char)) :
    step3 card (some a) dt = (some a, dt) := rfl

theorem stepsRest_fst_some (card : Card) (a : Nat) (m : Option Nat)
    (dt mt : Option (List Char)) :
    (stepsRest card (some a) m dt mt).1 = some a := by
  simp only [stepsRest, step3_some]
  rfl

theorem two_distinct_length (l : List Nat) (x y : Nat) (hx : x ∈ l) (hy : y ∈ l)
    (hxy : ¬ x = y) : 2 ≤ l.length := by
  cases l with
  | nil => simp at hx
  | cons a t =>
    cases t with
    | nil =>
      simp only [List.mem_singleton] at hx hy
      exact absurd (hx.trans hy.symm) hxy
    | cons b t2 => simp only [List.length_cons]; omega

theorem getLast?_of_ne_nil :
    ∀ l : List (Nat × List Char), ¬ l = [] → ∃ p, l.getLast? = some p := by
  intro l
  induction l with
  | nil => intro h; exact absurd rfl h
  | cons a t ih =>
    intro _
    cases t with
    | nil => exact ⟨a, rfl⟩
    | cons b t2 =>
      rcases ih (by simp) with ⟨p, hp⟩
      exact ⟨p, by rw [List.getLast?_cons_cons]; exact hp⟩

theorem extract_step1_result (card : Card) (a b : Nat) (t bt : List Char)
    (rest : List (Nat × List Char))
    (hs : sortByAmt (parsedOf card) = (a, t) :: rest)
    (hr : rest.getLast? = some (b, bt)) (ha : ¬ a = 0) :
    extract_prices_from_card card = (some a, some b, some t, some bt) := by
  unfold extract_prices_from_card
  rw [hs]
  dsimp only
  rw [hr]
  dsimp only
  rw [if_neg ha]

theorem extract_fst_of_sorted_cons (card : Card) (a : Nat) (t : List Char)
    (rest : List (Nat × List Char))
    (hs : sortByAmt (parsedOf card) = (a, t) :: rest) :
    (extract_prices_from_card card).1 = some a := by
  unfold extract_prices_from_card
  rw [hs]
  dsimp only
  by_cases ha : a = 0
  · rw [if_pos ha]
    exact stepsRest_fst_some card a _ _ _
  · rw [if_neg ha]

theorem extract_fst_min (card : Card) (h : ¬ parsedOf card = []) :
    ∃ a, (extract_prices_from_card card).1 = some a ∧ a ∈ amtsOf card ∧
      ∀ x ∈ amtsOf card, a ≤ x := by
  have hslen : (sortByAmt (parsedOf card)).length = (parsedOf card).length :=
    sortByAmt_length _
  cases hs : sortByAmt (parsedOf card) with
  | nil =>
    rw [hs] at hslen
    cases hp : parsedOf card with
    | nil => exact absurd hp h
    | cons p ps => rw [hp] at hslen; simp at hslen
  | cons p rest =>
    obtain ⟨a, t⟩ := p
    have hpmem : (a, t) ∈ parsedOf card :=
      (mem_sortByAmt _ _).mp (by rw [hs]; exact List.mem_cons_self _ _)
    have hsorted := pairwise_sortByAmt (parsedOf card)
    rw [hs] at hsorted
    refine ⟨a, extract_fst_of_sorted_cons card a t rest hs, List.mem_map_of_mem Prod.fst hpmem, ?_⟩
    intro z hz
    rcases List.mem_map.mp hz with ⟨pr, hprmem, hpr⟩
    have hprs : pr ∈ (a, t) :: rest := by
      rw [← hs]
      exact (mem_sortByAmt _ _).mpr hprmem
    rcases List.mem_cons.mp hprs with rfl | h2
    · exact le_of_eq hpr
    · exact hpr ▸ (List.pairwise_cons.mp hsorted).1 pr h2

/-- Claim C2, counterexample: a listing whose offscreen texts parse to the
distinct amounts 0, 3 and 5.  The maximum is 5, but because the minimum is 0
(falsy under `if discounted_amt:`) the extractor does not return early, and
the struck-out-price step rewrites the reference price to 3 — the reference
returned is not the maximum parsed amount. -/
theorem offscreen_minmax_cex :
    (∃ x ∈ amtsOf cexCard2, ∃ y ∈ amtsOf cexCard2, ¬ x = y) ∧
    5 ∈ amtsOf cexCard2 ∧ (∀ x ∈ amtsOf cexCard2, x ≤ 5) ∧
    (extract_prices_from_card cexCard2).2.1 = some 3 ∧
    ¬ (extract_prices_from_card cexCard2).2.1 = some 5 := by
  refine ⟨by decide, by decide, by decide, by decide, by decide⟩

/-- Claim C2 (amended): for every listing whose offscreen price texts parse
to two or more distinct amounts, none of which is zero, the extraction
returns the minimum parsed amount as the current price and the maximum as the
reference price.  (When the minimum is zero the chain falls through and a
struck-out-price element may overwrite the reference; see the
counterexample.) -/
theorem offscreen_minmax_spec :
    ∀ card : Card,
      (∃ x ∈ amtsOf card, ∃ y ∈ amtsOf card, ¬ x = y) →
      ¬ (0 : Nat) ∈ amtsOf card →
      ∃ a b, (extract_prices_from_card card).1 = some a ∧
        (extract_prices_from_card card).2.1 = some b ∧
        a ∈ amtsOf card ∧ b ∈ amtsOf card ∧
        ∀ x ∈ amtsOf card, a ≤ x ∧ x ≤ b := by
  intro card hd h0
  rcases hd with ⟨x, hx, y, hy, hxy⟩
  have hlen2 : 2 ≤ (amtsOf card).length := two_distinct_length _ x y hx hy hxy
  have hlenp : 2 ≤ (parsedOf card).length := by
    have hmap : (amtsOf card).length = (parsedOf card).length := List.length_map _ _
    omega
  have hslen : (sortByAmt (parsedOf card)).length = (parsedOf card).length :=
    sortByAmt_length _
  cases hs : sortByAmt (parsedOf card) with
  | nil => rw [hs] at hslen; simp at hslen; omega
  | cons p rest =>
    obtain ⟨a, t⟩ := p
    have hrest : ¬ rest = [] := by
      intro hcon
      rw [hs, hcon] at hslen
      simp at hslen
      omega
    obtain ⟨q, hr⟩ := getLast?_of_ne_nil rest hrest
    obtain ⟨b, bt⟩ := q
    have hpmem : (a, t) ∈ parsedOf card :=
      (mem_sortByAmt _ _).mp (by rw [hs]; exact List.mem_cons_self _ _)
    have hamem : a ∈ amtsOf card := List.mem_map_of_mem Prod.fst hpmem
    have hqmem : (b, bt) ∈ parsedOf card :=
      (mem_sortByAmt _ _).mp (by rw [hs]; exact List.mem_cons_of_mem _ (getLast?_mem _ _ hr))
    have hbmem : b ∈ amtsOf card := List.mem_map_of_mem Prod.fst hqmem
    have ha0 : ¬ a = 0 := fun hcon => h0 (hcon ▸ hamem)
    have hex := extract_step1_result card a b t bt rest hs hr ha0
    have hsorted := pairwise_sortByAmt (parsedOf card)
    rw [hs] at hsorted
    have hslast : ((a, t) :: rest).getLast? = some (b, bt) := by
      cases rest with
      | nil => exact absurd rfl hrest
      | cons r0 rtl => rw [List.getLast?_cons_cons]; exact hr
    refine ⟨a, b, by rw [hex], by rw [hex], hamem, hbmem, ?_⟩
    intro z hz
    rcases List.mem_map.mp hz with ⟨pr, hprmem, hpr⟩
    have hprs : pr ∈ (a, t) :: rest := by
      rw [← hs]
      exact (mem_sortByAmt _ _).mpr hprmem
    constructor
    · rcases List.mem_cons.mp hprs with rfl | h2
      · exact le_of_eq hpr
      · exact hpr ▸ (List.pairwise_cons.mp hsorted).1 pr h2
    · exact hpr ▸ pairwise_getLast_max _ _ hsorted hslast pr hprs

/-- Witness for the amended claim C2 at a listing with offscreen amounts 3
and 5. -/
theorem offscreen_minmax_spec_witness :
    ∃ a b,
      (extract_prices_from_card ⟨[['₹', '3'], ['₹', '5']], [], [], [], none⟩).1 = some a ∧
      (extract_prices_from_card ⟨[['₹', '3'], ['₹', '5']], [], [], [], none⟩).2.1 = some b ∧
      a ∈ amtsOf ⟨[['₹', '3'], ['₹', '5']], [], [], [], none⟩ ∧
      b ∈ amtsOf ⟨[['₹', '3'], ['₹', '5']], [], [], [], none⟩ ∧
      ∀ x ∈ amtsOf ⟨[['₹', '3'], ['₹', '5']], [], [], [], none⟩, a ≤ x ∧ x ≤ b :=
  offscreen_minmax_spec ⟨[['₹', '3'], ['₹', '5']], [], [], [], none⟩ (by decide) (by decide)

/-- Claim C3, counterexample: on the listing with offscreen texts "₹1,999"
and "₹2,999" the extractor does return 1999 and 2999, but the recorded
two-decimal discount is exactly 33.34 — the rounding of 33.3444…% — and not
33.33 as the claim approximates. -/
theorem discount_example_cex :
    computeDiscount (extract_prices_from_card cexCard3).1
        (extract_prices_from_card cexCard3).2.1 = some ((3334 : ℚ) / 100) ∧
    ¬ ((3334 : ℚ) / 100) = ((3333 : ℚ) / 100) := by
  have h1 : (extract_prices_from_card cexCard3).1 = some 1999 := by decide
  have h2 : (extract_prices_from_card cexCard3).2.1 = some 2999 := by decide
  have hfl : ⌊((2999 : ℚ) - 1999) / 2999 * 100 * 100 + 2⁻¹⌋ = (3334 : ℤ) := by
    rw [Int.floor_eq_iff]
    norm_num
  constructor
  · rw [h1, h2]
    simp [computeDiscount, round2]
    rw [hfl]
    norm_num
  · norm_num

/-- Claim C3 (amended): for the listing carrying exactly the two offscreen
price texts "₹1,999" and "₹2,999", the extractor records current price 1999,
reference price 2999, and discount_percentage exactly 33.34, being
((2999-1999)/2999)*100 = 33.3444… rounded to two decimal places. -/
theorem discount_example_spec :
    (extract_prices_from_card cexCard3).1 = some 1999 ∧
    (extract_prices_from_card cexCard3).2.1 = some 2999 ∧
    computeDiscount (extract_prices_from_card cexCard3).1
        (extract_prices_from_card cexCard3).2.1 = some ((3334 : ℚ) / 100) := by
  have h1 : (extract_prices_from_card cexCard3).1 = some 1999 := by decide
  have h2 : (extract_prices_from_card cexCard3).2.1 = some 2999 := by decide
  have hfl : ⌊((2999 : ℚ) - 1999) / 2999 * 100 * 100 + 2⁻¹⌋ = (3334 : ℤ) := by
    rw [Int.floor_eq_iff]
    norm_num
  refine ⟨h1, h2, ?_⟩
  rw [h1, h2]
  simp [computeDiscount, round2]
  rw [hfl]
  norm_num

/-- Claim C4, counterexample: on a listing with offscreen amounts 0 and 5 and
a struck-out "₹0" element, step 1 produces reference price 5, yet the
returned reference price is 0: the struck-out-price step changed a field an
earlier step had already produced. -/
theorem fallback_fill_cex :
    (sortByAmt (parsedOf cexCard4)).getLast? = some (5, ['₹', '5']) ∧
    (extract_prices_from_card cexCard4).2.1 = some 0 ∧
    ¬ (extract_prices_from_card cexCard4).2.1 = some 5 := by
  refine ⟨by decide, by decide, by decide⟩

/-- Claim C4 (amended): the chain is fill-in-only for the current price:
whenever the offscreen step parses anything, the returned current price is
exactly its minimum (later steps only assign when it `is None`); and when the
offscreen step parses nothing, a current price produced by the
whole/fraction step is returned unchanged.  The reference price is not
fill-in-only: the struck-out-price step overwrites it whenever it runs, which
happens exactly when the offscreen minimum is zero (see the
counterexample). -/
theorem fallback_fill_spec :
    ∀ card : Card,
      (¬ parsedOf card = [] →
        ∃ a, (extract_prices_from_card card).1 = some a ∧ a ∈ amtsOf card ∧
          ∀ x ∈ amtsOf card, a ≤ x) ∧
      (parsedOf card = [] → ∀ a, (step3 card none none).1 = some a →
        (extract_prices_from_card card).1 = some a) := by
  intro card
  constructor
  · exact extract_fst_min card
  · intro hp a h3
    unfold extract_prices_from_card
    have hs : sortByAmt (parsedOf card) = [] := by rw [hp]; rfl
    rw [hs]
    show (stepsRest card none none none none).1 = some a
    simp only [stepsRest]
    cases hpr : step3 card none none with
    | mk d3 dt3 =>
      rw [hpr] at h3
      dsimp at h3
      rw [h3]
      rfl

/-- Witness for the amended claim C4 at a listing with a single offscreen
amount. -/
theorem fallback_fill_spec_witness :
    ∃ a, (extract_prices_from_card ⟨[['₹', '7']], [], [], [], none⟩).1 = some a ∧
      a ∈ amtsOf ⟨[['₹', '7']], [], [], [], none⟩ ∧
      ∀ x ∈ amtsOf ⟨[['₹', '7']], [], [], [], none⟩, a ≤ x :=
  (fallback_fill_spec ⟨[['₹', '7']], [], [], [], none⟩).1 (by decide)

/-! ## Lemmas about the scrape loop -/

theorem pairwise_append_one (rs : List Row) (row : Row) (h : rs.Pairwise goodRel)
    (hall : ∀ a ∈ rs, goodRel a row) : (rs ++ [row]).Pairwise goodRel := by
  rw [List.pairwise_append]
  refine ⟨h, List.pairwise_singleton _ _, fun a ha b hb => ?_⟩
  rcases List.mem_singleton.mp hb with rfl
  exact hall a ha

theorem addRow_pairwise (rs : List Row) (t ptext : List Char) (link : Option (List Char))
    (m : Option Nat) (disc : Option ℚ) (h : rs.Pairwise goodRel) :
    (if truthyS link then
      if rs.any (fun r => decide (r.link = link)) then rs
      else rs ++ [⟨t, ptext, link, m, disc⟩]
    else
      if rs.any (fun r => decide (r.title = t)) then rs
      else rs ++ [⟨t, ptext, link, m, disc⟩]).Pairwise goodRel := by
  by_cases hl : truthyS link = true
  · rw [if_pos hl]
    by_cases hany : rs.any (fun r => decide (r.link = link)) = true
    · rw [if_pos hany]
      exact h
    · rw [if_neg hany]
      refine pairwise_append_one rs _ h (fun a ha => ?_)
      have hnol : ¬ (a.link = link) := by
        intro hcon
        exact hany (List.any_eq_true.mpr ⟨a, ha, by simp [hcon]⟩)
      constructor
      · intro _ hcon
        exact hnol hcon.symm
      · intro hfalsy
        exact Bool.noConfusion (hl.symm.trans hfalsy)
  · rw [if_neg hl]
    have hlf : truthyS link = false := by
      cases hv : truthyS link
      · rfl
      · exact absurd hv hl
    by_cases hany : rs.any (fun r => decide (r.title = t)) = true
    · rw [if_pos hany]
      exact h
    · rw [if_neg hany]
      refine pairwise_append_one rs _ h (fun a ha => ?_)
      have hnot : ¬ (a.title = t) := by
        intro hcon
        exact hany (List.any_eq_true.mpr ⟨a, ha, by simp [hcon]⟩)
      constructor
      · intro hat hcon
        rw [← hcon] at hat
        exact Bool.noConfusion (hat.symm.trans hlf)
      · intro _ hcon
        exact hnot hcon

theorem processCard_pairwise (rs : List Row) (c : CardView) (h : rs.Pairwise goodRel) :
    (processCard rs c).Pairwise goodRel := by
  unfold processCard
  by_cases ht : truthyS c.title = true
  · rw [if_pos ht]
    exact addRow_pairwise rs _ _ _ _ _ h
  · rw [if_neg ht]
    exact h

theorem foldl_processCard_pairwise :
    ∀ (cards : List CardView) (rs : List Row), rs.Pairwise goodRel →
      (List.foldl processCard rs cards).Pairwise goodRel := by
  intro cards
  induction cards with
  | nil => intro rs h; exact h
  | cons c cs ih => intro rs h; exact ih _ (processCard_pairwise rs c h)

/-- Claim C5: in the result list of a scrape run, a truthy (present) link is
never shared by two rows, and every row stored without a truthy link has a
title different from the titles of all rows added before it; in particular,
two listings carrying identical truthy links and truthy titles produce
exactly one result row. -/
theorem dedupe_invariant_spec :
    (∀ cards : List CardView, (List.foldl processCard [] cards).Pairwise goodRel) ∧
    (∀ (x z y : Char) (t1 t2 l : List Char) (fb1 fb2 : Option (List Char))
        (p1 p2 : List Char) (c1 c2 : Card),
      (List.foldl processCard []
        [⟨some (x :: t1), some (y :: l), fb1, p1, c1⟩,
         ⟨some (z :: t2), some (y :: l), fb2, p2, c2⟩]).length = 1) := by
  constructor
  · intro cards
    exact foldl_processCard_pairwise cards [] List.Pairwise.nil
  · intro x z y t1 t2 l fb1 fb2 p1 p2 c1 c2
    show (processCard (processCard [] ⟨some (x :: t1), some (y :: l), fb1, p1, c1⟩)
      ⟨some (z :: t2), some (y :: l), fb2, p2, c2⟩).length = 1
    simp [processCard, truthyS]

/-! ## Lemmas about the page budget -/

theorem addRow_length (rs : List Row) (t ptext : List Char) (link : Option (List Char))
    (m : Option Nat) (disc : Option ℚ) :
    (if truthyS link then
      if rs.any (fun r => decide (r.link = link)) then rs
      else rs ++ [⟨t, ptext, link, m, disc⟩]
    else
      if rs.any (fun r => decide (r.title = t)) then rs
      else rs ++ [⟨t, ptext, link, m, disc⟩]).length ≤ rs.length + 1 := by
  by_cases hl : truthyS link = true
  · rw [if_pos hl]
    by_cases hany : rs.any (fun r => decide (r.link = link)) = true
    · rw [if_pos hany]; omega
    · rw [if_neg hany]; simp
  · rw [if_neg hl]
    by_cases hany : rs.any (fun r => decide (r.title = t)) = true
    · rw [if_pos hany]; omega
    · rw [if_neg hany]; simp

theorem processCard_length (rs : List Row) (c : CardView) :
    (processCard rs c).length ≤ rs.length + 1 := by
  unfold processCard
  by_cases ht : truthyS c.title = true
  · rw [if_pos ht]
    exact addRow_length rs _ _ _ _ _
  · rw [if_neg ht]
    omega

theorem processPage_length (minR : Nat) :
    ∀ (cards : List CardView) (rs : List Row), rs.length ≤ minR →
      (processPage minR rs cards).length ≤ minR := by
  intro cards
  induction cards with
  | nil => intro rs h; exact h
  | cons c cs ih =>
    intro rs h
    unfold processPage
    by_cases hc : minR ≤ rs.length
    · rw [if_pos hc]; exact h
    · rw [if_neg hc]
      refine ih _ ?_
      have := processCard_length rs c
      omega

theorem scrapeGo_bounds (minR maxP : Nat) :
    ∀ (pages : List (List CardView)) (rs : List Row) (v : Nat),
      rs.length ≤ minR → v ≤ maxP →
      (scrapeGo minR maxP pages rs v).1.length ≤ minR ∧
        (scrapeGo minR maxP pages rs v).2 ≤ maxP := by
  intro pages
  induction pages with
  | nil => intro rs v h1 h2; exact ⟨h1, h2⟩
  | cons pg rest ih =>
    intro rs v h1 h2
    unfold scrapeGo
    by_cases hc : rs.length < minR ∧ v < maxP
    · rw [if_pos hc]
      dsimp only
      by_cases hc2 : minR ≤ (processPage minR rs pg).length
      · rw [if_pos hc2]
        exact ⟨processPage_length minR pg rs h1, by omega⟩
      · rw [if_neg hc2]
        exact ih _ _ (processPage_length minR pg rs h1) (by omega)
    · rw [if_neg hc]
      exact ⟨h1, h2⟩

/-- Claim C9: a scrape run never stores more than `min_results` rows — the
per-card and per-page checks stop collection as soon as the target is
reached, so the "minimum desired result count" is also an exact upper bound
on the output size — and never visits more than `max_pages` pages. -/
theorem page_budget_spec :
    ∀ (minR maxP : Nat) (pages : List (List CardView)),
      (scrape_amazon_loop minR maxP pages).1.length ≤ minR ∧
        (scrape_amazon_loop minR maxP pages).2 ≤ maxP := by
  intro minR maxP pages
  exact scrapeGo_bounds minR maxP pages [] 0 (by simp) (by simp)

end AmazonRepo
